import Mathlib

/-!
Verification of the duplo duplicate-file finder (src/main.py).

The Python source is shallowly embedded below.  Python dicts (used as
`defaultdict(list)` accumulators and as the hash cache) are modelled as
association lists that preserve insertion order, exactly mirroring dict
iteration order in Python 3.  The MD5 content digest (`get_file_hash`,
src/main.py lines 33-42) performs file I/O, so it is modelled as an
oracle parameter `h : Path → Option Fingerprint`: `none` models the
`except (IOError, OSError): return None` branch (read failure), `some`
a successful hex digest.  Hex digest strings are modelled as naturals;
they are never empty in Python, so the truthiness test `if file_hash:`
at line 161 coincides with the `is not None` test modelled by `Option`.
File modification times are compared only for exact equality, so they
are modelled as naturals as well.
-/

namespace Duplo

abbrev Path := String

abbrev Fingerprint := Nat

/-- A `(full_path, file_size, mtime)` tuple as produced by `scan_directory`
(src/main.py line 86). -/
structure FileRec where
  path : Path
  size : Nat
  mtime : Nat
deriving DecidableEq

/-! ### Insertion-ordered dictionaries

`upsert m k v` models `m[k].append(v)` on a Python `defaultdict(list)`:
existing keys keep their position, a new key is appended at the end.
`alookup` is dict indexing, `groupBy` is the loop `for kv in l: m[kv[0]].append(kv[1])`.
-/

def upsert {K V : Type} [DecidableEq K] : List (K × List V) → K → V → List (K × List V)
  | [], k, v => [(k, [v])]
  | (k', vs) :: rest, k, v =>
      if k' = k then (k', vs ++ [v]) :: rest else (k', vs) :: upsert rest k v

def alookup {K V : Type} [DecidableEq K] (k : K) : List (K × V) → Option V
  | [] => none
  | (k', v) :: rest => if k' = k then some v else alookup k rest

def groupBy {K V : Type} [DecidableEq K] (l : List (K × V)) : List (K × List V) :=
  l.foldl (fun m kv => upsert m kv.1 kv.2) []

/-! ### HashCache (src/main.py lines 90-126)

The persistent pickle store is outside the core; we model the in-memory
dict `self.cache : {path: {'size':…,'mtime':…,'hash':…}}`.
-/

structure CacheEntry where
  size : Nat
  mtime : Nat
  hash : Fingerprint
deriving DecidableEq

abbrev Cache := List (Path × CacheEntry)

/-- `HashCache.get` (lines 111-118): the stored hash is returned only when
both the stored size and the stored mtime equal the current ones. -/
def cacheGet (c : Cache) (file_path : Path) (file_size mtime : Nat) : Option Fingerprint :=
  match alookup file_path c with
  | some cached_data =>
      if cached_data.size = file_size ∧ cached_data.mtime = mtime then
        some cached_data.hash
      else none
  | none => none

/-- `HashCache.set` (lines 120-126): `self.cache[file_path] = {...}`,
i.e. overwrite in place or append a new binding. -/
def cacheSet : Cache → Path → CacheEntry → Cache
  | [], p, e => [(p, e)]
  | (p', e') :: rest, p, e =>
      if p' = p then (p, e) :: rest else (p', e') :: cacheSet rest p e

/-! ### find_duplicates_parallel (src/main.py lines 128-191)

Despite its name and the `ThreadPoolExecutor` import, the function never
dispatches work to a pool: the `max_workers` argument is accepted and
ignored, and hashing runs strictly sequentially in the nested `for`
loops of lines 153-180.  The embedding therefore takes `maxWorkers` as
an (unused) argument as well.
-/

/-- `size_groups` (lines 136-138): group the scan tuples by size. -/
def sizeGroups (file_list : List FileRec) : List (Nat × List (Path × Nat)) :=
  groupBy (file_list.map fun f => (f.size, (f.path, f.mtime)))

/-- `candidate_groups` (line 141): only sizes with 2+ files may hold duplicates. -/
def candidateGroups (file_list : List FileRec) : List (Nat × List (Path × Nat)) :=
  (sizeGroups file_list).filter fun g => 1 < g.2.length

/-- The sequence of files visited by the nested loops of lines 153-154,
flattened in iteration order with the group size re-attached. -/
def candidateFiles (file_list : List FileRec) : List FileRec :=
  (candidateGroups file_list).flatMap fun g => g.2.map fun pm => ⟨pm.1, g.1, pm.2⟩

/-- Mutable state of the hashing loop: `hashes_map`, the optional cache,
and the `processed` / `from_cache` counters (lines 147-149).
`digest_calls` instruments the number of `get_file_hash` invocations
(line 169); it equals `processed - from_cache` in the source. -/
structure DetState where
  hashes_map : List (Fingerprint × List Path)
  cache : Option Cache
  processed : Nat
  from_cache : Nat
  digest_calls : Nat
deriving DecidableEq

/-- One iteration of the inner loop, lines 154-180. -/
def processFile (h : Path → Option Fingerprint) (st : DetState) (f : FileRec) : DetState :=
  match st.cache with
  | some c =>
    match cacheGet c f.path f.size f.mtime with
    | some file_hash =>
        -- cache hit: lines 160-165
        { st with hashes_map := upsert st.hashes_map file_hash f.path,
                  from_cache := st.from_cache + 1,
                  processed := st.processed + 1 }
    | none =>
        -- cache miss: compute, store, group (lines 168-174)
        match h f.path with
        | some file_hash =>
            { st with hashes_map := upsert st.hashes_map file_hash f.path,
                      cache := some (cacheSet c f.path ⟨f.size, f.mtime, file_hash⟩),
                      digest_calls := st.digest_calls + 1,
                      processed := st.processed + 1 }
        | none =>
            { st with digest_calls := st.digest_calls + 1,
                      processed := st.processed + 1 }
  | none =>
    match h f.path with
    | some file_hash =>
        { st with hashes_map := upsert st.hashes_map file_hash f.path,
                  digest_calls := st.digest_calls + 1,
                  processed := st.processed + 1 }
    | none =>
        { st with digest_calls := st.digest_calls + 1,
                  processed := st.processed + 1 }

/-- The full hashing pass of `find_duplicates_parallel`. -/
def runDetection (h : Path → Option Fingerprint) (cache0 : Option Cache)
    (file_list : List FileRec) : DetState :=
  (candidateFiles file_list).foldl (processFile h) ⟨[], cache0, 0, 0, 0⟩

/-- Line 190: keep only hash groups with 2+ members. -/
def duplicatesOf (st : DetState) : List (Fingerprint × List Path) :=
  st.hashes_map.filter fun g => 1 < g.2.length

/-- `find_duplicates_parallel(file_list, max_workers, cache_file)`:
returns the `duplicates` dict of line 191.  `maxWorkers` is unused,
exactly as in the source. -/
def find_duplicates_parallel (h : Path → Option Fingerprint) (maxWorkers : Nat)
    (cache0 : Option Cache) (file_list : List FileRec) : List (Fingerprint × List Path) :=
  duplicatesOf (runDetection h cache0 file_list)

/-- The fingerprint the loop body resolves for a file against a given
cache state: the valid cached hash if any, else the digest oracle.
This is the decision made by lines 158-170. -/
def effFp (h : Path → Option Fingerprint) (co : Option Cache) (f : FileRec) :
    Option Fingerprint :=
  match co with
  | some c =>
    match cacheGet c f.path f.size f.mtime with
    | some file_hash => some file_hash
    | none => h f.path
  | none => h f.path

/-! ### find_identical_directories (src/main.py lines 193-232) -/

/-- Position of the last `/` in a character list, if any. -/
def lastSlashPos : List Char → Option Nat
  | [] => none
  | c :: cs =>
    match lastSlashPos cs with
    | some i => some (i + 1)
    | none => if c = '/' then some 0 else none

/-- Drop trailing `/` characters (`str.rstrip('/')`). -/
def rstripSlash (l : List Char) : List Char :=
  ((l.reverse).dropWhile (fun c => c = '/')).reverse

/-- `os.path.dirname` (posixpath): everything before the final `/`;
the head keeps its slashes only when it consists solely of slashes. -/
def dirname (p : Path) : Path :=
  match lastSlashPos p.toList with
  | none => ""
  | some i =>
    let head := p.toList.take (i + 1)
    if head.any (fun c => c ≠ '/') then String.mk (rstripSlash head) else String.mk head

/-- `dir_hashes` (lines 211-217): for every member path of every duplicate
group, append the group's hash to the containing directory's list. -/
def dirHashes (duplicates : List (Fingerprint × List Path)) : List (Path × List Fingerprint) :=
  groupBy (duplicates.flatMap fun g => g.2.map fun file_path => (dirname file_path, g.1))

/-- `dir_signatures` (lines 220-222): the sorted hash list of each directory. -/
def dirSignatures (duplicates : List (Fingerprint × List Path)) :
    List (Path × List Fingerprint) :=
  (dirHashes duplicates).map fun g => (g.1, List.insertionSort (· ≤ ·) g.2)

/-- `signature_groups` (lines 225-227): directories grouped by signature. -/
def signatureGroups (duplicates : List (Fingerprint × List Path)) :
    List (List Fingerprint × List Path) :=
  groupBy ((dirSignatures duplicates).map fun g => (g.2, g.1))

/-- Lines 230-232: emit only the groups with 2+ directories. -/
def find_identical_directories (duplicates : List (Fingerprint × List Path)) :
    List (List Path) :=
  ((signatureGroups duplicates).filter fun g => 1 < g.2.length).map fun g => g.2

/-! ### Selection (src/main.py lines 269-393)

The interactive prompt loop is I/O; its per-group actions are embedded.
-/

/-- Choice `a` — keep the first copy: `file_paths[1:]` (lines 311-313). -/
def keepFirstSelection (file_paths : List Path) : List Path :=
  file_paths.drop 1

/-- Choice `b` — keep the last copy: `file_paths[:-1]` (lines 314-317). -/
def keepLastSelection (file_paths : List Path) : List Path :=
  file_paths.dropLast

/-- Choice `m` — manual keep-set (lines 318-326 and 362-370): every member
whose position is not in `keep_indices` is appended to the deletion list.
An empty prompt answer yields `keep_indices = []`. -/
def manualKeepSelection (file_paths : List Path) (keep_indices : List Nat) : List Path :=
  (file_paths.enum).filterMap fun ip => if ip.1 ∈ keep_indices then none else some ip.2

/-- `auto_select_first_copy` (lines 376-393). -/
def auto_select_first_copy (duplicates : List (Fingerprint × List Path))
    (identical_dirs : List (List Path)) : List Path × List Path :=
  (duplicates.foldl (fun files_to_delete g => files_to_delete ++ g.2.drop 1) [],
   identical_dirs.foldl (fun dirs_to_delete dg => dirs_to_delete ++ dg.drop 1) [])

/-! ### execute_deletion (src/main.py lines 436-483)

The filesystem is a finite map from file paths to sizes plus a set of
directories.  `os.path.getsize` on a missing path raises, which the
`except` at line 457 records; in the model a step on a missing path
appends the path to `errors` and changes nothing else.
-/

structure FS where
  files : List (Path × Nat)
  dirs : List Path
deriving DecidableEq

structure ExecState where
  fs : FS
  deleted_files : Nat
  deleted_dirs : Nat
  freed_space : Nat
  errors : List Path
deriving DecidableEq

/-- Is `file_path` inside directory `dir_path` (as `os.walk` would find it)? -/
def underDir (dir_path file_path : Path) : Bool :=
  (dir_path ++ "/").isPrefixOf file_path

/-- One iteration of the file-deletion loop, lines 447-458. -/
def deleteFileStep (dryRun : Bool) (st : ExecState) (file_path : Path) : ExecState :=
  match alookup file_path st.fs.files with
  | some file_size =>
      let fs' := if dryRun then st.fs
                 else { st.fs with files := st.fs.files.filter fun x => x.1 ≠ file_path }
      { st with fs := fs',
                deleted_files := st.deleted_files + 1,
                freed_space := st.freed_space + file_size }
  | none => { st with errors := st.errors ++ [file_path] }

/-- One iteration of the directory-deletion loop, lines 461-480.
`os.walk` on a missing directory yields nothing (size 0); `shutil.rmtree`
raises on a missing directory, caught at line 479. -/
def deleteDirStep (dryRun : Bool) (st : ExecState) (dir_path : Path) : ExecState :=
  let dir_size := ((st.fs.files.filter fun x => underDir dir_path x.1).map fun x => x.2).sum
  if dir_path ∈ st.fs.dirs then
    let fs' := if dryRun then st.fs
               else { files := st.fs.files.filter fun x => ¬ underDir dir_path x.1,
                      dirs := st.fs.dirs.filter fun d => d ≠ dir_path }
    { st with fs := fs',
              deleted_dirs := st.deleted_dirs + 1,
              freed_space := st.freed_space + dir_size }
  else
    { st with errors := st.errors ++ [dir_path] }

/-- `execute_deletion(files_to_delete, dirs_to_delete, dry_run)`:
files first (lines 447-458), then directories (lines 461-480). -/
def execute_deletion (dryRun : Bool) (files_to_delete dirs_to_delete : List Path)
    (fs0 : FS) : ExecState :=
  dirs_to_delete.foldl (deleteDirStep dryRun)
    (files_to_delete.foldl (deleteFileStep dryRun) ⟨fs0, 0, 0, 0, []⟩)

/-! ### format_size (src/main.py lines 44-49)

The loop divides by 1024.0, which is exact in binary floating point, so
the running value is modelled in `ℚ`; the f-string rendering is
abstracted as the `(value, unit)` pair.  When every unit is exhausted
the Python function falls off the loop and returns `None`.
-/

def formatUnits : List String := ["B", "KB", "MB", "GB", "TB"]

def formatSizeAux : List String → ℚ → Option (ℚ × String)
  | [], _ => none
  | unit :: rest, size_bytes =>
      if size_bytes < 1024 then some (size_bytes, unit)
      else formatSizeAux rest (size_bytes / 1024)

def format_size (size_bytes : ℚ) : Option (ℚ × String) :=
  formatSizeAux formatUnits size_bytes

/-! ### Analysis helpers (not part of the source, used to state and prove
properties of the embedded dictionaries and folds) -/

def keysOf {K V : Type} (m : List (K × V)) : List K :=
  m.map Prod.fst

/-- The values stored under key `k`, in input order. -/
def selVals {K V : Type} [DecidableEq K] (l : List (K × V)) (k : K) : List V :=
  (l.filter fun kv => decide (kv.1 = k)).map fun kv => kv.2

/-- Flatten a grouped dictionary back to key-value pairs. -/
def flattenPairs {K V : Type} (m : List (K × List V)) : List (K × V) :=
  m.flatMap fun g => g.2.map fun v => (g.1, v)

/-- Fold a sequence of optional-key appends into a grouped dictionary;
entries with key `none` are skipped.  This describes how `hashes_map`
grows over the hashing loop. -/
def appendsOf {K V : Type} [DecidableEq K] (m : List (K × List V))
    (seq : List (Option K × V)) : List (K × List V) :=
  seq.foldl (fun m x => match x.1 with | some k => upsert m k x.2 | none => m) m

/-- Cache lookup through the optional cache of a detection state. -/
def stLook (st : DetState) (p : Path) : Option CacheEntry :=
  st.cache.bind (alookup p)

/-- `cacheGet` through an optional cache. -/
def cacheGetOf (co : Option Cache) (f : FileRec) : Option Fingerprint :=
  match co with
  | some c => cacheGet c f.path f.size f.mtime
  | none => none

/-! ### Concrete inputs used by the witness theorems -/

def oracleW : Path → Option Fingerprint := fun p =>
  if p = "a" ∨ p = "b" then some 5 else if p = "c" ∨ p = "d" then some 7 else none

def oracleFailW : Path → Option Fingerprint := fun p =>
  if p = "a" ∨ p = "c" then some 5 else none

def filesW : List FileRec := [⟨"a", 1, 0⟩, ⟨"b", 1, 0⟩, ⟨"c", 2, 0⟩, ⟨"d", 2, 0⟩]

def filesFailW : List FileRec := [⟨"a", 1, 0⟩, ⟨"b", 1, 0⟩, ⟨"c", 1, 0⟩]

def dupsW : List (Fingerprint × List Path) :=
  [(5, ["a/p", "a/q"]), (7, ["a/t", "b/u"]), (5, ["b/r", "b/s"])]

def cacheW : Cache := [("a", ⟨4, 7, 99⟩)]

def fsW : FS := ⟨[("f1", 10), ("f2", 20)], ["d1"]⟩

/-! ## Lemmas about insertion-ordered dictionaries -/

theorem alookup_upsert {K V : Type} [DecidableEq K] (m : List (K × List V)) (k k' : K) (v : V) :
    alookup k' (upsert m k v) =
      if k' = k then some ((alookup k m).getD [] ++ [v]) else alookup k' m := by
  induction m with
  | nil =>
    by_cases hk : k' = k
    · subst hk
      simp [upsert, alookup]
    · have hk2 : ¬ k = k' := fun h => hk h.symm
      simp [upsert, alookup, hk, hk2]
  | cons kv rest ih =>
    obtain ⟨k₀, vs₀⟩ := kv
    by_cases h0 : k₀ = k
    · subst h0
      by_cases hk : k₀ = k'
      · subst hk
        simp [upsert, alookup]
      · have hk2 : ¬ k' = k₀ := fun h => hk h.symm
        simp [upsert, alookup, hk, hk2]
    · by_cases hk : k₀ = k'
      · subst hk
        simp [upsert, alookup, h0]
      · have hk2 : ¬ k' = k₀ := fun h => hk h.symm
        simp [upsert, alookup, h0, hk, hk2, ih]

theorem keysOf_upsert {K V : Type} [DecidableEq K] (m : List (K × List V)) (k : K) (v : V) :
    keysOf (upsert m k v) = if k ∈ keysOf m then keysOf m else keysOf m ++ [k] := by
  induction m with
  | nil => simp [upsert, keysOf]
  | cons kv rest ih =>
    obtain ⟨k₀, vs₀⟩ := kv
    by_cases h0 : k₀ = k
    · subst h0
      simp [upsert, keysOf]
    · have hne : ¬ k = k₀ := fun h => h0 h.symm
      by_cases hm : k ∈ keysOf rest
      · simp [upsert, keysOf, h0, hne, hm, ih] at ih ⊢
        simp [keysOf] at hm
        simp [ih, hm, hne]
      · simp [upsert, keysOf, h0, hne, hm, ih] at ih ⊢
        simp [keysOf] at hm
        simp [ih, hm, hne]

theorem keysOf_nodup_upsert {K V : Type} [DecidableEq K] (m : List (K × List V)) (k : K)
    (v : V) (h : (keysOf m).Nodup) : (keysOf (upsert m k v)).Nodup := by
  rw [keysOf_upsert]
  by_cases hm : k ∈ keysOf m
  · simpa [hm]
  · simp only [hm, if_false]
    simpa [List.nodup_append] using ⟨h, hm⟩

theorem mem_of_alookup_eq_some {K V : Type} [DecidableEq K] {m : List (K × V)} {k : K} {v : V}
    (h : alookup k m = some v) : (k, v) ∈ m := by
  induction m with
  | nil => simp [alookup] at h
  | cons kv rest ih =>
    obtain ⟨k₀, v₀⟩ := kv
    by_cases hk : k₀ = k
    · subst hk
      simp [alookup] at h
      simp [h]
    · simp [alookup, hk] at h
      simp [ih h]

theorem alookup_eq_some_of_mem {K V : Type} [DecidableEq K] {m : List (K × V)} {k : K} {v : V}
    (hnd : (keysOf m).Nodup) (h : (k, v) ∈ m) : alookup k m = some v := by
  induction m with
  | nil => simp at h
  | cons kv rest ih =>
    obtain ⟨k₀, v₀⟩ := kv
    rw [show keysOf ((k₀, v₀) :: rest) = k₀ :: keysOf rest from rfl, List.nodup_cons] at hnd
    rcases List.mem_cons.mp h with h | h
    · injection h with h1 h2
      subst h1
      subst h2
      simp [alookup]
    · have hk : ¬ k₀ = k := by
        intro he
        subst he
        exact hnd.1 (List.mem_map_of_mem Prod.fst h)
      simp [alookup, hk, ih hnd.2 h]

theorem mem_selVals {K V : Type} [DecidableEq K] (l : List (K × V)) (k : K) (v : V) :
    v ∈ selVals l k ↔ (k, v) ∈ l := by
  simp only [selVals, List.mem_map, List.mem_filter]
  constructor
  · rintro ⟨⟨k', v'⟩, ⟨hm, hk⟩, hv⟩
    simp at hk hv
    subst hk hv
    exact hm
  · intro h
    exact ⟨(k, v), ⟨h, by simp⟩, rfl⟩

theorem selVals_cons {K V : Type} [DecidableEq K] (kv : K × V) (l : List (K × V)) (k : K) :
    selVals (kv :: l) k = (if kv.1 = k then [kv.2] else []) ++ selVals l k := by
  by_cases h : kv.1 = k <;> simp [selVals, h]

theorem keysOf_nodup_dictFold {K V : Type} [DecidableEq K] (l : List (K × V))
    (m : List (K × List V)) (h : (keysOf m).Nodup) :
    (keysOf (l.foldl (fun m kv => upsert m kv.1 kv.2) m)).Nodup := by
  induction l generalizing m with
  | nil => simpa using h
  | cons kv rest ih => exact ih _ (keysOf_nodup_upsert _ _ _ h)

theorem keysOf_nodup_groupBy {K V : Type} [DecidableEq K] (l : List (K × V)) :
    (keysOf (groupBy l)).Nodup :=
  keysOf_nodup_dictFold l [] (by simp [keysOf])

theorem alookup_dictFold_getD {K V : Type} [DecidableEq K] (l : List (K × V)) (k : K) :
    ∀ m : List (K × List V),
      (alookup k (l.foldl (fun m kv => upsert m kv.1 kv.2) m)).getD [] =
        (alookup k m).getD [] ++ selVals l k := by
  induction l with
  | nil => intro m; simp [selVals]
  | cons kv rest ih =>
    intro m
    obtain ⟨k₀, v₀⟩ := kv
    simp only [List.foldl_cons]
    rw [ih, alookup_upsert, selVals_cons]
    by_cases h : k₀ = k
    · subst h
      simp
    · have h' : ¬ k = k₀ := fun he => h he.symm
      simp [h, h']

theorem alookup_dictFold_eq_none {K V : Type} [DecidableEq K] (l : List (K × V)) (k : K) :
    ∀ m : List (K × List V),
      alookup k (l.foldl (fun m kv => upsert m kv.1 kv.2) m) = none ↔
        (alookup k m = none ∧ selVals l k = []) := by
  induction l with
  | nil => intro m; simp [selVals]
  | cons kv rest ih =>
    intro m
    obtain ⟨k₀, v₀⟩ := kv
    simp only [List.foldl_cons]
    rw [ih, alookup_upsert, selVals_cons]
    by_cases h : k₀ = k
    · subst h
      simp
    · have h' : ¬ k = k₀ := fun he => h he.symm
      simp [h, h']

theorem mem_groupBy_iff {K V : Type} [DecidableEq K] {l : List (K × V)} {k : K}
    {vs : List V} : (k, vs) ∈ groupBy l ↔ (vs = selVals l k ∧ vs ≠ []) := by
  have hfold : groupBy l = l.foldl (fun m kv => upsert m kv.1 kv.2) [] := rfl
  constructor
  · intro h
    have hsome := alookup_eq_some_of_mem (keysOf_nodup_groupBy l) h
    have hgd := alookup_dictFold_getD l k []
    rw [← hfold, hsome] at hgd
    have hvs : vs = selVals l k := by simpa [alookup] using hgd
    refine ⟨hvs, fun hemp => ?_⟩
    have hnone : alookup k (groupBy l) = none := by
      rw [hfold, alookup_dictFold_eq_none]
      exact ⟨rfl, by rw [← hvs]; exact hemp⟩
    rw [hsome] at hnone
    exact Option.noConfusion hnone
  · rintro ⟨hvs, hne⟩
    have hnn : ¬ alookup k (groupBy l) = none := by
      rw [hfold, alookup_dictFold_eq_none]
      rintro ⟨-, hsel⟩
      exact hne (hvs.trans hsel)
    obtain ⟨vs', hvs'⟩ := Option.ne_none_iff_exists'.mp hnn
    have hgd := alookup_dictFold_getD l k []
    rw [← hfold, hvs'] at hgd
    have hv' : vs' = selVals l k := by simpa [alookup] using hgd
    rw [hvs, ← hv']
    exact mem_of_alookup_eq_some hvs'

theorem mem_flattenPairs {K V : Type} (m : List (K × List V)) (k : K) (v : V) :
    (k, v) ∈ flattenPairs m ↔ ∃ vs, (k, vs) ∈ m ∧ v ∈ vs := by
  simp only [flattenPairs, List.mem_flatMap, List.mem_map]
  constructor
  · rintro ⟨⟨k', vs'⟩, hm, w, hw, he⟩
    injection he with h1 h2
    subst h1
    subst h2
    exact ⟨vs', hm, hw⟩
  · rintro ⟨vs, hm, hv⟩
    exact ⟨(k, vs), hm, v, hv, rfl⟩

theorem flattenPairs_upsert_perm {K V : Type} [DecidableEq K] (m : List (K × List V))
    (k : K) (v : V) : (flattenPairs (upsert m k v)).Perm (flattenPairs m ++ [(k, v)]) := by
  induction m with
  | nil => simp [upsert, flattenPairs]
  | cons g rest ih =>
    obtain ⟨k₀, vs₀⟩ := g
    by_cases h0 : k₀ = k
    · subst h0
      have hup : upsert ((k₀, vs₀) :: rest) k₀ v = (k₀, vs₀ ++ [v]) :: rest := by
        simp [upsert]
      have h1 : flattenPairs ((k₀, vs₀ ++ [v]) :: rest)
          = vs₀.map (fun w => (k₀, w)) ++ ([(k₀, v)] ++ flattenPairs rest) := by
        simp [flattenPairs]
      have h2 : flattenPairs ((k₀, vs₀) :: rest) ++ [(k₀, v)]
          = vs₀.map (fun w => (k₀, w)) ++ (flattenPairs rest ++ [(k₀, v)]) := by
        simp [flattenPairs]
      rw [hup, h1, h2]
      exact List.Perm.append_left _ List.perm_append_comm
    · have hup : upsert ((k₀, vs₀) :: rest) k v = (k₀, vs₀) :: upsert rest k v := by
        simp [upsert, h0]
      have h1 : flattenPairs ((k₀, vs₀) :: upsert rest k v)
          = vs₀.map (fun w => (k₀, w)) ++ flattenPairs (upsert rest k v) := by
        simp [flattenPairs]
      have h2 : flattenPairs ((k₀, vs₀) :: rest) ++ [(k, v)]
          = vs₀.map (fun w => (k₀, w)) ++ (flattenPairs rest ++ [(k, v)]) := by
        simp [flattenPairs]
      rw [hup, h1, h2]
      exact List.Perm.append_left _ ih

theorem flattenPairs_groupBy_perm {K V : Type} [DecidableEq K] (l : List (K × V)) :
    (flattenPairs (groupBy l)).Perm l := by
  induction l using List.reverseRecOn with
  | nil => simp [groupBy, flattenPairs]
  | append_singleton l a ih =>
    have hg : groupBy (l ++ [a]) = upsert (groupBy l) a.1 a.2 := by
      simp [groupBy, List.foldl_append]
    rw [hg]
    refine (flattenPairs_upsert_perm _ _ _).trans ?_
    have : ((a.1, a.2) : K × V) = a := rfl
    rw [this]
    exact ih.append_right [a]

theorem appendsOf_eq {K V : Type} [DecidableEq K] (seq : List (Option K × V)) :
    ∀ m : List (K × List V),
      appendsOf m seq =
        (seq.filterMap fun x => x.1.map fun k => (k, x.2)).foldl
          (fun m kv => upsert m kv.1 kv.2) m := by
  induction seq with
  | nil => intro m; simp [appendsOf]
  | cons x rest ih =>
    intro m
    obtain ⟨o, v⟩ := x
    cases o with
    | none => simpa [appendsOf, List.filterMap_cons] using ih _
    | some k => simpa [appendsOf, List.filterMap_cons] using ih _

/-! ## Lemmas about the hashing loop -/

theorem alookup_cacheSet (c : Cache) (p : Path) (e : CacheEntry) (q : Path) :
    alookup q (cacheSet c p e) = if q = p then some e else alookup q c := by
  induction c with
  | nil =>
    by_cases hq : q = p
    · subst hq
      simp [cacheSet, alookup]
    · have hq2 : ¬ p = q := fun h => hq h.symm
      simp [cacheSet, alookup, hq, hq2]
  | cons pe rest ih =>
    obtain ⟨p₀, e₀⟩ := pe
    by_cases h0 : p₀ = p
    · subst h0
      by_cases hq : p₀ = q
      · subst hq
        simp [cacheSet, alookup]
      · have hq2 : ¬ q = p₀ := fun h => hq h.symm
        simp [cacheSet, alookup, hq, hq2]
    · by_cases hq : p₀ = q
      · subst hq
        simp [cacheSet, alookup, h0]
      · simp [cacheSet, alookup, h0, hq, ih]

theorem cacheGetOf_congr {co1 co2 : Option Cache} {f : FileRec}
    (he : co1.bind (alookup f.path) = co2.bind (alookup f.path)) :
    cacheGetOf co1 f = cacheGetOf co2 f := by
  cases co1 with
  | none =>
    cases co2 with
    | none => rfl
    | some c2 =>
      simp only [Option.bind] at he
      simp [cacheGetOf, cacheGet, ← he]
  | some c1 =>
    cases co2 with
    | none =>
      simp only [Option.bind] at he
      simp [cacheGetOf, cacheGet, he]
    | some c2 =>
      simp only [Option.bind] at he
      simp [cacheGetOf, cacheGet, he]

theorem effFp_congr (h : Path → Option Fingerprint) {co1 co2 : Option Cache} {f : FileRec}
    (he : co1.bind (alookup f.path) = co2.bind (alookup f.path)) :
    effFp h co1 f = effFp h co2 f := by
  cases co1 with
  | none =>
    cases co2 with
    | none => rfl
    | some c2 =>
      simp only [Option.bind] at he
      simp [effFp, cacheGet, ← he]
  | some c1 =>
    cases co2 with
    | none =>
      simp only [Option.bind] at he
      simp [effFp, cacheGet, he]
    | some c2 =>
      simp only [Option.bind] at he
      simp [effFp, cacheGet, he]

theorem processFile_hashes (h : Path → Option Fingerprint) (st : DetState) (f : FileRec) :
    (processFile h st f).hashes_map =
      match effFp h st.cache f with
      | some fh => upsert st.hashes_map fh f.path
      | none => st.hashes_map := by
  obtain ⟨hm, co, p, fc, dc⟩ := st
  cases co with
  | none => cases hh : h f.path <;> simp [processFile, effFp, hh]
  | some c =>
    cases hget : cacheGet c f.path f.size f.mtime with
    | some fh => simp [processFile, effFp, hget]
    | none => cases hh : h f.path <;> simp [processFile, effFp, hget, hh]

theorem stLook_processFile_ne (h : Path → Option Fingerprint) (st : DetState) (f : FileRec)
    (q : Path) (hq : ¬ q = f.path) : stLook (processFile h st f) q = stLook st q := by
  obtain ⟨hm, co, p, fc, dc⟩ := st
  cases co with
  | none => cases hh : h f.path <;> simp [processFile, stLook, hh]
  | some c =>
    cases hget : cacheGet c f.path f.size f.mtime with
    | some fh => simp [processFile, stLook, hget]
    | none =>
      cases hh : h f.path with
      | none => simp [processFile, stLook, hget, hh]
      | some fh => simp [processFile, stLook, hget, hh, alookup_cacheSet, hq]

theorem processFile_cache_some (h : Path → Option Fingerprint) (st : DetState) (f : FileRec)
    (c : Cache) (hc : st.cache = some c) :
    ∃ c', (processFile h st f).cache = some c' := by
  obtain ⟨hm, co, p, fc, dc⟩ := st
  simp at hc
  subst hc
  cases hget : cacheGet c f.path f.size f.mtime with
  | some fh => exact ⟨c, by simp [processFile, hget]⟩
  | none =>
    cases hh : h f.path with
    | some fh =>
      exact ⟨cacheSet c f.path ⟨f.size, f.mtime, fh⟩, by simp [processFile, hget, hh]⟩
    | none => exact ⟨c, by simp [processFile, hget, hh]⟩

theorem fold_stLook_not_mem (h : Path → Option Fingerprint) (L : List FileRec) :
    ∀ (st : DetState) (q : Path), q ∉ L.map FileRec.path →
      stLook (L.foldl (processFile h) st) q = stLook st q := by
  induction L with
  | nil => intro st q _; rfl
  | cons f L' ih =>
    intro st q hq
    simp only [List.map_cons, List.mem_cons, not_or] at hq
    simp only [List.foldl_cons]
    rw [ih _ q (by simpa using hq.2)]
    exact stLook_processFile_ne h st f q hq.1

theorem fold_hashes_eq (h : Path → Option Fingerprint) (L : List FileRec) :
    ∀ st : DetState, (L.map FileRec.path).Nodup →
      (L.foldl (processFile h) st).hashes_map =
        appendsOf st.hashes_map (L.map fun f => (effFp h st.cache f, f.path)) := by
  induction L with
  | nil => intro st _; simp [appendsOf]
  | cons f L' ih =>
    intro st hnd
    simp only [List.map_cons, List.nodup_cons] at hnd
    obtain ⟨hf, hnd'⟩ := hnd
    simp only [List.foldl_cons, List.map_cons]
    rw [ih (processFile h st f) hnd']
    have hcongr : ∀ f' ∈ L', effFp h (processFile h st f).cache f' = effFp h st.cache f' := by
      intro f' hf'
      have hne : ¬ f'.path = f.path := by
        intro he
        exact hf (he ▸ List.mem_map_of_mem FileRec.path hf')
      exact effFp_congr h (stLook_processFile_ne h st f f'.path hne)
    have hmap : L'.map (fun f' => (effFp h (processFile h st f).cache f', f'.path)) =
        L'.map (fun f' => (effFp h st.cache f', f'.path)) :=
      List.map_congr_left fun f' hf' => by rw [hcongr f' hf']
    rw [hmap]
    have hstep : appendsOf st.hashes_map
        ((effFp h st.cache f, f.path) :: L'.map fun f' => (effFp h st.cache f', f'.path)) =
        appendsOf (processFile h st f).hashes_map
          (L'.map fun f' => (effFp h st.cache f', f'.path)) := by
      rw [processFile_hashes]
      cases heff : effFp h st.cache f <;> simp [appendsOf, heff]
    rw [hstep]

theorem processFile_shift (h : Path → Option Fingerprint) (f : FileRec) (st : DetState) :
    processFile h st f =
      ⟨(processFile h ⟨st.hashes_map, st.cache, 0, 0, 0⟩ f).hashes_map,
       (processFile h ⟨st.hashes_map, st.cache, 0, 0, 0⟩ f).cache,
       st.processed + (processFile h ⟨st.hashes_map, st.cache, 0, 0, 0⟩ f).processed,
       st.from_cache + (processFile h ⟨st.hashes_map, st.cache, 0, 0, 0⟩ f).from_cache,
       st.digest_calls + (processFile h ⟨st.hashes_map, st.cache, 0, 0, 0⟩ f).digest_calls⟩ := by
  obtain ⟨hm, co, p, fc, dc⟩ := st
  cases co with
  | none => cases hh : h f.path <;> simp [processFile, hh]
  | some c =>
    cases hget : cacheGet c f.path f.size f.mtime with
    | some fh => simp [processFile, hget]
    | none => cases hh : h f.path <;> simp [processFile, hget, hh]

theorem fold_shift (h : Path → Option Fingerprint) (L : List FileRec) :
    ∀ st : DetState,
      L.foldl (processFile h) st =
        ⟨(L.foldl (processFile h) ⟨st.hashes_map, st.cache, 0, 0, 0⟩).hashes_map,
         (L.foldl (processFile h) ⟨st.hashes_map, st.cache, 0, 0, 0⟩).cache,
         st.processed + (L.foldl (processFile h) ⟨st.hashes_map, st.cache, 0, 0, 0⟩).processed,
         st.from_cache + (L.foldl (processFile h) ⟨st.hashes_map, st.cache, 0, 0, 0⟩).from_cache,
         st.digest_calls +
           (L.foldl (processFile h) ⟨st.hashes_map, st.cache, 0, 0, 0⟩).digest_calls⟩ := by
  induction L with
  | nil => intro st; simp
  | cons f L' ih =>
    intro st
    simp only [List.foldl_cons]
    rw [ih (processFile h st f), ih (processFile h ⟨st.hashes_map, st.cache, 0, 0, 0⟩ f),
      processFile_shift h f st]
    simp [Nat.add_assoc]

/-- After the hashing pass, looking a processed file up in the cache yields
exactly the fingerprint that was resolved for it during the pass. -/
theorem fold_cacheGet_final (h : Path → Option Fingerprint) (L : List FileRec) :
    ∀ (st : DetState) (c : Cache), st.cache = some c → (L.map FileRec.path).Nodup →
      ∀ f ∈ L, cacheGetOf (L.foldl (processFile h) st).cache f = effFp h st.cache f := by
  induction L with
  | nil => intro st c _ _ f hf; simp at hf
  | cons f0 L' ih =>
    intro st c hc hnd f hf
    simp only [List.map_cons, List.nodup_cons] at hnd
    obtain ⟨hf0, hnd'⟩ := hnd
    simp only [List.foldl_cons]
    obtain ⟨c', hc'⟩ := processFile_cache_some h st f0 c hc
    rcases List.mem_cons.mp hf with rfl | hf'
    · -- the processed file itself: later files do not touch its cache entry
      have hlater : stLook (L'.foldl (processFile h) (processFile h st f)) f.path =
          stLook (processFile h st f) f.path :=
        fold_stLook_not_mem h L' _ f.path hf0
      have hfinal : cacheGetOf (L'.foldl (processFile h) (processFile h st f)).cache f =
          cacheGetOf (processFile h st f).cache f :=
        cacheGetOf_congr hlater
      rw [hfinal]
      obtain ⟨hm, co, p, fc, dc⟩ := st
      simp only [DetState.cache] at hc
      subst hc
      cases hget : cacheGet c f.path f.size f.mtime with
      | some fh => simp [processFile, hget, cacheGetOf, effFp]
      | none =>
        cases hh : h f.path with
        | some fh =>
          have hpf : processFile h ⟨hm, some c, p, fc, dc⟩ f =
              ⟨upsert hm fh f.path, some (cacheSet c f.path ⟨f.size, f.mtime, fh⟩),
               p + 1, fc, dc + 1⟩ := by
            simp [processFile, hget, hh]
          rw [hpf]
          have hrhs : effFp h (some c) f = some fh := by
            simp only [effFp, hget, hh]
          simp only [DetState.cache]
          rw [hrhs]
          simp [cacheGetOf, cacheGet, alookup_cacheSet]
        | none =>
          have hpf : processFile h ⟨hm, some c, p, fc, dc⟩ f =
              ⟨hm, some c, p + 1, fc, dc + 1⟩ := by
            simp [processFile, hget, hh]
          rw [hpf]
          simp only [DetState.cache, cacheGetOf, effFp, hget, hh]
    · have heq : effFp h (processFile h st f0).cache f = effFp h st.cache f := by
        have hne : ¬ f.path = f0.path := by
          intro he
          exact hf0 (he ▸ List.mem_map_of_mem FileRec.path hf')
        exact effFp_congr h (stLook_processFile_ne h st f0 f.path hne)
      rw [← heq]
      exact ih (processFile h st f0) c' hc' hnd' f hf'

/-- When every file of the pass has a valid cache entry, the pass performs
no digest calls, leaves the cache untouched, and counts every file as a
cache hit. -/
theorem fold_all_hits (h : Path → Option Fingerprint) (L : List FileRec) :
    ∀ st : DetState, (∀ f ∈ L, (cacheGetOf st.cache f).isSome = true) →
      L.foldl (processFile h) st =
        ⟨appendsOf st.hashes_map (L.map fun f => (cacheGetOf st.cache f, f.path)),
         st.cache, st.processed + L.length, st.from_cache + L.length, st.digest_calls⟩ := by
  induction L with
  | nil => intro st _; simp [appendsOf]
  | cons f L' ih =>
    intro st hall
    obtain ⟨hm, co, p, fc, dc⟩ := st
    cases co with
    | none =>
      have h0 := hall f (List.mem_cons_self f L')
      simp [cacheGetOf] at h0
    | some c =>
      have hsome := hall f (List.mem_cons_self f L')
      simp only [cacheGetOf] at hsome
      obtain ⟨fh, hfh⟩ := Option.isSome_iff_exists.mp hsome
      have hstep : processFile h ⟨hm, some c, p, fc, dc⟩ f =
          ⟨upsert hm fh f.path, some c, p + 1, fc + 1, dc⟩ := by
        simp [processFile, hfh]
      have hall' : ∀ g ∈ L',
          (cacheGetOf ((⟨upsert hm fh f.path, some c, p + 1, fc + 1, dc⟩ : DetState)).cache
            g).isSome = true := by
        intro g hg
        exact hall g (List.mem_cons_of_mem f hg)
      have hgf : cacheGetOf (some c) f = some fh := hfh
      have happ : appendsOf hm ((f :: L').map fun g => (cacheGetOf (some c) g, g.path)) =
          appendsOf (upsert hm fh f.path)
            (L'.map fun g => (cacheGetOf (some c) g, g.path)) := by
        simp [appendsOf, hgf]
      simp only [List.foldl_cons, hstep]
      rw [ih _ hall']
      simp only [DetState.hashes_map, DetState.cache, DetState.processed, DetState.from_cache,
        DetState.digest_calls]
      rw [happ]
      simp only [DetState.mk.injEq, List.length_cons, true_and, and_true]
      omega

/-! ## Relating the candidate list to the input file list -/

theorem flatMap_filter_sublist {α β : Type} (P : α → Bool) (l : List α) (f : α → List β) :
    ((l.filter P).flatMap f).Sublist (l.flatMap f) := by
  induction l with
  | nil => simp
  | cons a l' ih =>
    by_cases hP : P a
    · simpa [List.filter_cons, hP] using ih.append_left (f a)
    · simp only [List.filter_cons, hP, Bool.false_eq_true, if_false, List.flatMap_cons]
      exact ih.trans (List.sublist_append_right (f a) _)

theorem flatten_recs_eq (m : List (Nat × List (Path × Nat))) :
    (m.flatMap fun g => g.2.map fun pm => (⟨pm.1, g.1, pm.2⟩ : FileRec)) =
      (flattenPairs m).map fun kv => (⟨kv.2.1, kv.1, kv.2.2⟩ : FileRec) := by
  simp only [flattenPairs, List.map_flatMap, List.map_map]
  rfl

theorem flatten_sizeGroups_perm (files : List FileRec) :
    ((sizeGroups files).flatMap fun g =>
      g.2.map fun pm => (⟨pm.1, g.1, pm.2⟩ : FileRec)).Perm files := by
  rw [flatten_recs_eq]
  have hperm := flattenPairs_groupBy_perm (files.map fun f => (f.size, (f.path, f.mtime)))
  have := hperm.map fun kv => (⟨kv.2.1, kv.1, kv.2.2⟩ : FileRec)
  refine this.trans ?_
  rw [List.map_map]
  have : files.map ((fun kv => (⟨kv.2.1, kv.1, kv.2.2⟩ : FileRec)) ∘
      fun f => (f.size, (f.path, f.mtime))) = files.map id :=
    List.map_congr_left fun f _ => rfl
  rw [this, List.map_id]

theorem candidateFiles_sublist (files : List FileRec) :
    (candidateFiles files).Sublist ((sizeGroups files).flatMap fun g =>
      g.2.map fun pm => (⟨pm.1, g.1, pm.2⟩ : FileRec)) :=
  flatMap_filter_sublist _ _ _

theorem candidateFiles_subperm (files : List FileRec) :
    (candidateFiles files).Subperm files :=
  ((candidateFiles_sublist files).subperm).trans (flatten_sizeGroups_perm files).subperm

theorem mem_of_mem_candidateFiles {files : List FileRec} {e : FileRec}
    (h : e ∈ candidateFiles files) : e ∈ files :=
  (candidateFiles_subperm files).subset h

theorem nodup_paths_candidateFiles {files : List FileRec}
    (hnd : (files.map FileRec.path).Nodup) :
    ((candidateFiles files).map FileRec.path).Nodup := by
  have hsub : ((candidateFiles files).map FileRec.path).Sublist
      (((sizeGroups files).flatMap fun g =>
        g.2.map fun pm => (⟨pm.1, g.1, pm.2⟩ : FileRec)).map FileRec.path) :=
    (candidateFiles_sublist files).map _
  have hperm := (flatten_sizeGroups_perm files).map FileRec.path
  exact (hperm.nodup_iff.mpr hnd).sublist hsub

/-- Every member of a `hashes_map` group came from a candidate file whose
resolved fingerprint is the group key. -/
theorem mem_group_member (h : Path → Option Fingerprint) (cache0 : Option Cache)
    (files : List FileRec) (hnd : ((candidateFiles files).map FileRec.path).Nodup)
    {fp : Fingerprint} {members : List Path}
    (hg : (fp, members) ∈ (runDetection h cache0 files).hashes_map)
    {p : Path} (hp : p ∈ members) :
    ∃ e ∈ candidateFiles files, e.path = p ∧ effFp h cache0 e = some fp := by
  have hmap : (runDetection h cache0 files).hashes_map =
      appendsOf ([] : List (Fingerprint × List Path))
        ((candidateFiles files).map fun f => (effFp h cache0 f, f.path)) := by
    have := fold_hashes_eq h (candidateFiles files) ⟨[], cache0, 0, 0, 0⟩ hnd
    simpa [runDetection] using this
  rw [hmap, appendsOf_eq] at hg
  have hg' : (fp, members) ∈ groupBy
      (((candidateFiles files).map fun f => (effFp h cache0 f, f.path)).filterMap
        fun x => x.1.map fun k => (k, x.2)) := hg
  obtain ⟨hm, -⟩ := mem_groupBy_iff.mp hg'
  rw [hm] at hp
  have hpair := (mem_selVals _ _ _).mp hp
  obtain ⟨x, hx, hxeq⟩ := List.mem_filterMap.mp hpair
  obtain ⟨e, he, rfl⟩ := List.mem_map.mp hx
  cases heff : effFp h cache0 e with
  | none => rw [heff] at hxeq; simp at hxeq
  | some fp' =>
    rw [heff] at hxeq
    simp only [Option.map_some] at hxeq
    injection hxeq with hxeq'
    injection hxeq' with h1 h2
    exact ⟨e, he, h2, by rw [heff, h1]⟩

/-! ## Claim C9: worker-count independence -/

/-- C9: for every input file list, the duplicate groups produced by
`find_duplicates_parallel` — membership and member order included — are
identical for any two values of the worker-count parameter: the source
accepts `max_workers` but never dispatches to the thread pool, so the
result depends only on the input order. -/
theorem find_duplicates_worker_count_irrelevant (h : Path → Option Fingerprint)
    (cache0 : Option Cache) (files : List FileRec) (w1 w2 : Nat) :
    find_duplicates_parallel h w1 cache0 files = find_duplicates_parallel h w2 cache0 files :=
  rfl

/-! ## Claim C1: empty keep-set is not rejected -/

/-- C1: contrary to the claim, an empty keep-set is not rejected with an
`InvalidPolicyError` (no such error exists in the source): the manual
selection branch of `interactive_selection` appends every member of the
group to the deletion list, here evaluated on the spec's own scenario
group of two copies. -/
theorem manualKeepSelection_empty_deletes_all :
    manualKeepSelection ["/x/1.bin", "/y/1.bin"] [] = ["/x/1.bin", "/y/1.bin"] := by
  decide

/-! ## Claim C6: keep-first / keep-last selection -/

theorem foldl_append_eq_flatMap {α β : Type} (l : List α) (f : α → List β) :
    ∀ acc : List β, l.foldl (fun a x => a ++ f x) acc = acc ++ l.flatMap f := by
  induction l with
  | nil => intro acc; simp
  | cons a l' ih => intro acc; simp [ih]

/-- C6: on a group `[m0, …, mk]` the keep-first policy deletes exactly the
members at positions `1 … k` (retaining `m0`), and the keep-last policy
deletes exactly the members at positions `0 … k-1` (retaining `mk`);
`auto_select_first_copy` applies keep-first to every group. -/
theorem keep_first_last_selection (dups : List (Fingerprint × List Path))
    (idirs : List (List Path)) (fh : Fingerprint) (ms : List Path) :
    (auto_select_first_copy dups idirs).1 = dups.flatMap (fun g => keepFirstSelection g.2)
    ∧ (auto_select_first_copy [(fh, ms)] []).1 = keepFirstSelection ms
    ∧ (keepFirstSelection ms).length = ms.length - 1
    ∧ (∀ i : Nat, (keepFirstSelection ms)[i]? = ms[i + 1]?)
    ∧ (keepLastSelection ms).length = ms.length - 1
    ∧ (∀ i : Nat, i < ms.length - 1 → (keepLastSelection ms)[i]? = ms[i]?) := by
  refine ⟨?_, ?_, ?_, ?_, ?_, ?_⟩
  · rw [auto_select_first_copy]
    rw [foldl_append_eq_flatMap dups (fun g => g.2.drop 1) []]
    rfl
  · simp [auto_select_first_copy, keepFirstSelection]
  · simp [keepFirstSelection]
  · intro i
    rw [keepFirstSelection, List.getElem?_drop, Nat.add_comm]
  · simp [keepLastSelection]
  · intro i hi
    rw [keepLastSelection, List.dropLast_eq_take, List.getElem?_take, if_pos hi]

/-- Witness for C6 at the concrete group `[a, b, c]`. -/
theorem keep_first_last_selection_witness :
    (keepLastSelection ["a", "b", "c"])[1]? = (["a", "b", "c"] : List Path)[1]? :=
  (keep_first_last_selection [] [] 0 ["a", "b", "c"]).2.2.2.2.2 1 (by decide)

/-! ## Claim C10: format_size is partial beyond 1024 TB -/

theorem formatSizeAux_none (us : List String) :
    ∀ q : ℚ, (1024 : ℚ) ^ us.length ≤ q → formatSizeAux us q = none := by
  induction us with
  | nil => intro q _; rfl
  | cons u rest ih =>
    intro q hq
    simp only [List.length_cons] at hq
    have hbig : (1024 : ℚ) ≤ 1024 ^ (rest.length + 1) := by
      calc (1024 : ℚ) = 1024 ^ 1 := (pow_one _).symm
        _ ≤ 1024 ^ (rest.length + 1) := by
            exact pow_le_pow_right₀ (by norm_num) (by omega)
    have h1 : ¬ q < 1024 := not_lt.mpr (hbig.trans hq)
    have h2 : (1024 : ℚ) ^ rest.length ≤ q / 1024 := by
      rw [le_div_iff₀ (by norm_num : (0 : ℚ) < 1024)]
      calc (1024 : ℚ) ^ rest.length * 1024 = 1024 ^ (rest.length + 1) := by
            rw [pow_succ]
        _ ≤ q := hq
    simp only [formatSizeAux, if_neg h1]
    exact ih _ h2

/-- C10: for every size of at least `1024^5` bytes the unit loop of
`format_size` exhausts all five units without returning, so the function
yields no formatted value (`None`). -/
theorem format_size_huge_returns_none (n : ℚ) (hn : (1024 : ℚ) ^ 5 ≤ n) :
    format_size n = none :=
  formatSizeAux_none formatUnits n (by simpa using hn)

/-- Witness for C10 at exactly `1024^5` bytes. -/
theorem format_size_huge_returns_none_witness :
    (1024 : ℚ) ^ 5 ≤ 1024 ^ 5 ∧ format_size ((1024 : ℚ) ^ 5) = none :=
  ⟨le_refl _, format_size_huge_returns_none _ (le_refl _)⟩

/-! ## Claim C3: cache lookup and overwrite contract -/

/-- C3: `HashCache.get` returns the stored fingerprint iff both the stored
size and stored mtime equal the current ones; on a miss the loop body
computes a fresh digest and overwrites the entry for that path with the
new size, mtime and fingerprint. -/
theorem hashCache_get_set_contract (c : Cache) (p : Path) (s m : Nat) :
    (∀ fh : Fingerprint, cacheGet c p s m = some fh ↔
      ∃ e : CacheEntry, alookup p c = some e ∧ e.size = s ∧ e.mtime = m ∧ e.hash = fh)
    ∧ (∀ (h : Path → Option Fingerprint) (st : DetState) (fh : Fingerprint),
        st.cache = some c → cacheGet c p s m = none → h p = some fh →
        (processFile h st ⟨p, s, m⟩).cache = some (cacheSet c p ⟨s, m, fh⟩)
        ∧ alookup p (cacheSet c p ⟨s, m, fh⟩) = some ⟨s, m, fh⟩
        ∧ (processFile h st ⟨p, s, m⟩).digest_calls = st.digest_calls + 1) := by
  constructor
  · intro fh
    constructor
    · intro hg
      cases he : alookup p c with
      | none => simp [cacheGet, he] at hg
      | some e =>
        simp only [cacheGet, he] at hg
        by_cases hcond : e.size = s ∧ e.mtime = m
        · rw [if_pos hcond] at hg
          injection hg with hg
          exact ⟨e, rfl, hcond.1, hcond.2, hg⟩
        · rw [if_neg hcond] at hg
          exact absurd hg (by simp)
    · rintro ⟨e, he, h1, h2, h3⟩
      simp [cacheGet, he, h1, h2, h3]
  · intro h st fh hc hmiss hh
    obtain ⟨hm, co, pr, fc, dc⟩ := st
    simp only [DetState.cache] at hc
    subst hc
    refine ⟨?_, ?_, ?_⟩
    · simp [processFile, hmiss, hh]
    · simp [alookup_cacheSet]
    · simp [processFile, hmiss, hh]

/-- Witness for C3: a stored entry with a stale size is bypassed and
overwritten with the freshly digested entry. -/
theorem hashCache_get_set_contract_witness :
    (processFile (fun _ => some 42) ⟨[], some cacheW, 0, 0, 0⟩ ⟨"a", 5, 7⟩).cache
      = some (cacheSet cacheW "a" ⟨5, 7, 42⟩)
    ∧ alookup "a" (cacheSet cacheW "a" ⟨5, 7, 42⟩) = some ⟨5, 7, 42⟩
    ∧ (processFile (fun _ => some 42) ⟨[], some cacheW, 0, 0, 0⟩ ⟨"a", 5, 7⟩).digest_calls
      = 0 + 1 :=
  (hashCache_get_set_contract cacheW "a" 5 7).2 (fun _ => some 42)
    ⟨[], some cacheW, 0, 0, 0⟩ 42 rfl (by decide) rfl

/-! ## Claim C2: files of different sizes never share a duplicate group -/

/-- C2: provided resolved fingerprints separate sizes (the spec's
collision-freedom assumption for a content digest), two input files with
different byte sizes are never placed in the same duplicate group, for
every input file list, cache and worker count. -/
theorem different_sizes_never_grouped (h : Path → Option Fingerprint) (cache0 : Option Cache)
    (w : Nat) (files : List FileRec)
    (hnd : (files.map FileRec.path).Nodup)
    (hcoll : ∀ f1 ∈ files, ∀ f2 ∈ files, effFp h cache0 f1 ≠ none →
      effFp h cache0 f1 = effFp h cache0 f2 → f1.size = f2.size) :
    ∀ f1 ∈ files, ∀ f2 ∈ files, f1.size ≠ f2.size →
      ∀ g ∈ find_duplicates_parallel h w cache0 files, ¬ (f1.path ∈ g.2 ∧ f2.path ∈ g.2) := by
  intro f1 hf1 f2 hf2 hsize g hg hpair
  obtain ⟨hp1, hp2⟩ := hpair
  have hndc := nodup_paths_candidateFiles hnd
  have hg' : g ∈ (runDetection h cache0 files).hashes_map :=
    (List.mem_filter.mp hg).1
  obtain ⟨fp, members⟩ := g
  obtain ⟨e1, he1, hpe1, heff1⟩ := mem_group_member h cache0 files hndc hg' hp1
  obtain ⟨e2, he2, hpe2, heff2⟩ := mem_group_member h cache0 files hndc hg' hp2
  have he1eq : e1 = f1 :=
    List.inj_on_of_nodup_map hnd (mem_of_mem_candidateFiles he1) hf1 (by rw [hpe1])
  have he2eq : e2 = f2 :=
    List.inj_on_of_nodup_map hnd (mem_of_mem_candidateFiles he2) hf2 (by rw [hpe2])
  have h1' : effFp h cache0 f1 = some fp := he1eq ▸ heff1
  have h2' : effFp h cache0 f2 = some fp := he2eq ▸ heff2
  exact hsize (hcoll f1 hf1 f2 hf2 (by simp [h1']) (h1'.trans h2'.symm))

/-- Witness for C2 on the concrete scenario: sizes 1 and 2, fingerprints
5 and 7; the size-1 file `a` and the size-2 file `c` share no group. -/
theorem different_sizes_never_grouped_witness :
    ¬ (("a" : Path) ∈ ((5, ["a", "b"]) : Fingerprint × List Path).2
       ∧ ("c" : Path) ∈ ((5, ["a", "b"]) : Fingerprint × List Path).2) :=
  different_sizes_never_grouped oracleW none 8 filesW (by decide) (by decide)
    ⟨"a", 1, 0⟩ (by decide) ⟨"c", 2, 0⟩ (by decide) (by decide)
    (5, ["a", "b"]) (by decide)

/-! ## Claim C4: idempotence of detection over an unchanged file set -/

/-- C4: re-running detection on an unchanged file set with the cache left
by the first run yields exactly the same duplicate groups and performs
zero digest computations (every fingerprint is resolved from the cache);
the first run must have resolved a fingerprint for every candidate. -/
theorem detection_idempotent (h : Path → Option Fingerprint) (c0 : Cache)
    (files : List FileRec)
    (hnd : (files.map FileRec.path).Nodup)
    (hall : ∀ f ∈ candidateFiles files, (effFp h (some c0) f).isSome = true) :
    duplicatesOf (runDetection h (runDetection h (some c0) files).cache files) =
      duplicatesOf (runDetection h (some c0) files)
    ∧ (runDetection h (runDetection h (some c0) files).cache files).digest_calls = 0 := by
  have hndc := nodup_paths_candidateFiles hnd
  have hA : ∀ f ∈ candidateFiles files,
      cacheGetOf (runDetection h (some c0) files).cache f = effFp h (some c0) f := by
    intro f hf
    exact fold_cacheGet_final h (candidateFiles files) ⟨[], some c0, 0, 0, 0⟩ c0 rfl hndc f hf
  have hall2 : ∀ f ∈ candidateFiles files,
      (cacheGetOf ((⟨[], (runDetection h (some c0) files).cache, 0, 0, 0⟩ : DetState).cache)
        f).isSome = true := by
    intro f hf
    have := hall f hf
    rw [← hA f hf] at this
    exact this
  have hrun2 := fold_all_hits h (candidateFiles files)
    ⟨[], (runDetection h (some c0) files).cache, 0, 0, 0⟩ hall2
  have hrd2 : runDetection h (runDetection h (some c0) files).cache files =
      (candidateFiles files).foldl (processFile h)
        ⟨[], (runDetection h (some c0) files).cache, 0, 0, 0⟩ := rfl
  have hmap1 : (runDetection h (some c0) files).hashes_map =
      appendsOf [] ((candidateFiles files).map fun f => (effFp h (some c0) f, f.path)) := by
    exact fold_hashes_eq h (candidateFiles files) ⟨[], some c0, 0, 0, 0⟩ hndc
  constructor
  · rw [hrd2, hrun2]
    simp only [duplicatesOf]
    congr 1
    rw [hmap1]
    congr 1
    exact List.map_congr_left fun f hf => by rw [hA f hf]
  · rw [hrd2, hrun2]

/-- Witness for C4: two same-size duplicate files, empty initial cache. -/
theorem detection_idempotent_witness :
    duplicatesOf (runDetection oracleW (runDetection oracleW (some []) filesW).cache filesW) =
      duplicatesOf (runDetection oracleW (some []) filesW)
    ∧ (runDetection oracleW (runDetection oracleW (some []) filesW).cache
        filesW).digest_calls = 0 :=
  detection_idempotent oracleW [] filesW (by decide) (by decide)

/-! ## Claim C7: a file whose digest fails is skipped, not fatal -/

theorem processFile_skip (h : Path → Option Fingerprint) (st : DetState) (f : FileRec)
    (c : Cache) (hc : st.cache = some c)
    (hget : cacheGet c f.path f.size f.mtime = none) (hh : h f.path = none) :
    processFile h st f =
      ⟨st.hashes_map, st.cache, st.processed + 1, st.from_cache, st.digest_calls + 1⟩ := by
  obtain ⟨hm, co, p, fc, dc⟩ := st
  simp only [DetState.cache] at hc
  subst hc
  simp [processFile, hget, hh]

theorem fold_cache_some (h : Path → Option Fingerprint) (L : List FileRec) :
    ∀ (st : DetState) (c : Cache), st.cache = some c →
      ∃ c', (L.foldl (processFile h) st).cache = some c' := by
  induction L with
  | nil => intro st c hc; exact ⟨c, hc⟩
  | cons f L' ih =>
    intro st c hc
    obtain ⟨c', hc'⟩ := processFile_cache_some h st f c hc
    simp only [List.foldl_cons]
    exact ih (processFile h st f) c' hc'

theorem effFp_none_decomp (h : Path → Option Fingerprint) (c : Cache) (f : FileRec)
    (he : effFp h (some c) f = none) :
    cacheGet c f.path f.size f.mtime = none ∧ h f.path = none := by
  cases hg : cacheGet c f.path f.size f.mtime with
  | some fh =>
    simp only [effFp, hg] at he
    exact Option.noConfusion he
  | none =>
    simp only [effFp, hg] at he
    exact ⟨rfl, he⟩

/-- C7: a candidate file whose cache lookup misses and whose digest fails
is assigned no fingerprint: it appears in no duplicate group, its cache
entry is untouched, and the remaining candidates are processed exactly as
if the file were absent (one extra digest attempt is the only trace). -/
theorem unreadable_file_skipped (h : Path → Option Fingerprint) (c0 : Cache) (w : Nat)
    (files l1 l2 : List FileRec) (e : FileRec)
    (hsplit : candidateFiles files = l1 ++ e :: l2)
    (hnd : (files.map FileRec.path).Nodup)
    (heff : effFp h (some c0) e = none) :
    (∀ g ∈ find_duplicates_parallel h w (some c0) files, e.path ∉ g.2)
    ∧ stLook (runDetection h (some c0) files) e.path = alookup e.path c0
    ∧ (runDetection h (some c0) files).hashes_map =
        ((l1 ++ l2).foldl (processFile h) ⟨[], some c0, 0, 0, 0⟩).hashes_map
    ∧ (runDetection h (some c0) files).cache =
        ((l1 ++ l2).foldl (processFile h) ⟨[], some c0, 0, 0, 0⟩).cache
    ∧ (runDetection h (some c0) files).digest_calls =
        ((l1 ++ l2).foldl (processFile h) ⟨[], some c0, 0, 0, 0⟩).digest_calls + 1 := by
  have hndc := nodup_paths_candidateFiles hnd
  have hnds : ((l1 ++ e :: l2).map FileRec.path).Nodup := by rw [← hsplit]; exact hndc
  have hmem_e : e ∈ candidateFiles files := by
    rw [hsplit]
    exact List.mem_append_right _ (List.mem_cons_self _ _)
  rw [List.map_append, List.map_cons] at hnds
  obtain ⟨hnd1, hndc2, hdisj⟩ := List.nodup_append.mp hnds
  have hnotl1 : e.path ∉ l1.map FileRec.path := fun hmem =>
    hdisj hmem (List.mem_cons_self _ _)
  have hnotl2 : e.path ∉ l2.map FileRec.path := (List.nodup_cons.mp hndc2).1
  have hrd : runDetection h (some c0) files =
      l2.foldl (processFile h)
        (processFile h (l1.foldl (processFile h) ⟨[], some c0, 0, 0, 0⟩) e) := by
    simp only [runDetection, hsplit, List.foldl_append, List.foldl_cons]
  obtain ⟨c1, hc1⟩ := fold_cache_some h l1 (⟨[], some c0, 0, 0, 0⟩ : DetState) c0 rfl
  have hlook1 : stLook (l1.foldl (processFile h) ⟨[], some c0, 0, 0, 0⟩) e.path =
      alookup e.path c0 :=
    fold_stLook_not_mem h l1 ⟨[], some c0, 0, 0, 0⟩ e.path hnotl1
  have hbind : (l1.foldl (processFile h) (⟨[], some c0, 0, 0, 0⟩ : DetState)).cache.bind
      (alookup e.path) = (some c0).bind (alookup e.path) := hlook1
  have heff1 : effFp h (l1.foldl (processFile h)
      (⟨[], some c0, 0, 0, 0⟩ : DetState)).cache e = none :=
    (effFp_congr h hbind).trans heff
  rw [hc1] at heff1
  obtain ⟨hget1, hh1⟩ := effFp_none_decomp h c1 e heff1
  have hpf := processFile_skip h (l1.foldl (processFile h) ⟨[], some c0, 0, 0, 0⟩) e c1
    hc1 hget1 hh1
  have hrhs : (l1 ++ l2).foldl (processFile h) (⟨[], some c0, 0, 0, 0⟩ : DetState) =
      l2.foldl (processFile h) (l1.foldl (processFile h) ⟨[], some c0, 0, 0, 0⟩) := by
    rw [List.foldl_append]
  have hshift1 := fold_shift h l2
    (⟨(l1.foldl (processFile h) (⟨[], some c0, 0, 0, 0⟩ : DetState)).hashes_map,
      (l1.foldl (processFile h) (⟨[], some c0, 0, 0, 0⟩ : DetState)).cache,
      (l1.foldl (processFile h) (⟨[], some c0, 0, 0, 0⟩ : DetState)).processed + 1,
      (l1.foldl (processFile h) (⟨[], some c0, 0, 0, 0⟩ : DetState)).from_cache,
      (l1.foldl (processFile h) (⟨[], some c0, 0, 0, 0⟩ : DetState)).digest_calls + 1⟩
      : DetState)
  have hshift2 := fold_shift h l2 (l1.foldl (processFile h) ⟨[], some c0, 0, 0, 0⟩)
  refine ⟨?_, ?_, ?_, ?_, ?_⟩
  · intro g hg hmem
    obtain ⟨fp, members⟩ := g
    have hg' : (fp, members) ∈ (runDetection h (some c0) files).hashes_map :=
      (List.mem_filter.mp hg).1
    obtain ⟨e', he', hpe', heffe'⟩ := mem_group_member h (some c0) files hndc hg' hmem
    have hee : e' = e := List.inj_on_of_nodup_map hndc he' hmem_e (by rw [hpe'])
    rw [hee, heff] at heffe'
    exact Option.noConfusion heffe'
  · rw [hrd, hpf]
    have hl2 := fold_stLook_not_mem h l2
      (⟨(l1.foldl (processFile h) (⟨[], some c0, 0, 0, 0⟩ : DetState)).hashes_map,
        (l1.foldl (processFile h) (⟨[], some c0, 0, 0, 0⟩ : DetState)).cache,
        (l1.foldl (processFile h) (⟨[], some c0, 0, 0, 0⟩ : DetState)).processed + 1,
        (l1.foldl (processFile h) (⟨[], some c0, 0, 0, 0⟩ : DetState)).from_cache,
        (l1.foldl (processFile h) (⟨[], some c0, 0, 0, 0⟩ : DetState)).digest_calls + 1⟩
        : DetState) e.path hnotl2
    rw [hl2]
    simpa [stLook] using hlook1
  · rw [hrd, hpf, hrhs, hshift1, hshift2]
  · rw [hrd, hpf, hrhs, hshift1, hshift2]
  · rw [hrd, hpf, hrhs, hshift1, hshift2]
    simp only [DetState.digest_calls]
    omega

/-- Witness for C7: three same-size files, the middle one unreadable;
after the pass the cache still holds nothing for the unreadable path. -/
theorem unreadable_file_skipped_witness :
    stLook (runDetection oracleFailW (some []) filesFailW) "b" = alookup "b" ([] : Cache) :=
  (unreadable_file_skipped oracleFailW [] 8 filesFailW
    [⟨"a", 1, 0⟩] [⟨"c", 1, 0⟩] ⟨"b", 1, 0⟩
    (by decide) (by decide) (by decide)).2.1

/-! ## Claim C5: order-independent directory matching -/

theorem sort_eq_of_perm {l1 l2 : List Fingerprint} (h : l1.Perm l2) :
    List.insertionSort (· ≤ ·) l1 = List.insertionSort (· ≤ ·) l2 :=
  List.eq_of_perm_of_sorted
    ((List.perm_insertionSort _ l1).trans (h.trans (List.perm_insertionSort _ l2).symm))
    (List.sorted_insertionSort _ l1) (List.sorted_insertionSort _ l2)

theorem perm_of_sort_eq {l1 l2 : List Fingerprint}
    (h : List.insertionSort (· ≤ ·) l1 = List.insertionSort (· ≤ ·) l2) : l1.Perm l2 :=
  (List.perm_insertionSort _ l1).symm.trans (h ▸ List.perm_insertionSort _ l2)

theorem keys_nodup_mem_inj {K V : Type} [DecidableEq K] {m : List (K × V)} {k : K}
    {v1 v2 : V} (hnd : (keysOf m).Nodup) (h1 : (k, v1) ∈ m) (h2 : (k, v2) ∈ m) : v1 = v2 := by
  have e1 := alookup_eq_some_of_mem hnd h1
  have e2 := alookup_eq_some_of_mem hnd h2
  exact Option.some.inj (e1.symm.trans e2)

theorem one_lt_length_of_two_mem {α : Type} {l : List α} {a b : α}
    (ha : a ∈ l) (hb : b ∈ l) (hab : a ≠ b) : 1 < l.length := by
  cases l with
  | nil => simp at ha
  | cons x xs =>
    cases xs with
    | nil =>
      simp at ha hb
      exact absurd (ha.trans hb.symm) hab
    | cons y ys => simp [List.length_cons]

theorem mem_map_swap {A B : Type} (m : List (A × B)) (b : B) (a : A) :
    (b, a) ∈ m.map (fun g => (g.2, g.1)) ↔ (a, b) ∈ m := by
  constructor
  · intro h
    obtain ⟨⟨x, y⟩, hxy, he⟩ := List.mem_map.mp h
    injection he with e1 e2
    subst e1
    subst e2
    exact hxy
  · intro h
    exact List.mem_map_of_mem _ h

theorem mem_dirSignatures_iff {dups : List (Fingerprint × List Path)} {d : Path}
    {sig : List Fingerprint} :
    (d, sig) ∈ dirSignatures dups ↔
      ∃ hs, (d, hs) ∈ dirHashes dups ∧ sig = List.insertionSort (· ≤ ·) hs := by
  constructor
  · intro h
    obtain ⟨⟨d', hs⟩, hmem, he⟩ := List.mem_map.mp h
    injection he with e1 e2
    subst e1
    exact ⟨hs, hmem, e2.symm⟩
  · rintro ⟨hs, hmem, rfl⟩
    exact List.mem_map_of_mem _ hmem

theorem keysOf_dirSignatures (dups : List (Fingerprint × List Path)) :
    keysOf (dirSignatures dups) = keysOf (dirHashes dups) := by
  simp [keysOf, dirSignatures, List.map_map]

/-- C5: two distinct directories are placed in the same
identical-directory group iff their accumulated duplicate-fingerprint
lists are permutations of each other (order-independent multiset
matching), and every emitted group holds at least two directories. -/
theorem directory_matching_perm (dups : List (Fingerprint × List Path)) (d1 d2 : Path)
    (hs1 hs2 : List Fingerprint)
    (h1 : (d1, hs1) ∈ dirHashes dups) (h2 : (d2, hs2) ∈ dirHashes dups) (hne : d1 ≠ d2) :
    (hs1.Perm hs2 → ∃ g ∈ find_identical_directories dups, d1 ∈ g ∧ d2 ∈ g)
    ∧ (¬ hs1.Perm hs2 → ∀ g ∈ find_identical_directories dups, ¬ (d1 ∈ g ∧ d2 ∈ g))
    ∧ (∀ g ∈ find_identical_directories dups, 2 ≤ g.length) := by
  have hkeys : (keysOf (dirHashes dups)).Nodup := keysOf_nodup_groupBy _
  have hlen : ∀ g ∈ find_identical_directories dups, 2 ≤ g.length := by
    intro g hg
    obtain ⟨⟨sig, vs⟩, hmemf, rfl⟩ := List.mem_map.mp hg
    have := (List.mem_filter.mp hmemf).2
    simpa using this
  refine ⟨?_, ?_, hlen⟩
  · intro hp
    have hsigeq : List.insertionSort (· ≤ ·) hs1 = List.insertionSort (· ≤ ·) hs2 :=
      sort_eq_of_perm hp
    have hsw1 : (List.insertionSort (· ≤ ·) hs1, d1) ∈
        (dirSignatures dups).map (fun g => (g.2, g.1)) :=
      (mem_map_swap _ _ _).mpr (mem_dirSignatures_iff.mpr ⟨hs1, h1, rfl⟩)
    have hsw2 : (List.insertionSort (· ≤ ·) hs1, d2) ∈
        (dirSignatures dups).map (fun g => (g.2, g.1)) := by
      rw [hsigeq]
      exact (mem_map_swap _ _ _).mpr (mem_dirSignatures_iff.mpr ⟨hs2, h2, rfl⟩)
    have hd1 : d1 ∈ selVals ((dirSignatures dups).map (fun g => (g.2, g.1)))
        (List.insertionSort (· ≤ ·) hs1) := (mem_selVals _ _ _).mpr hsw1
    have hd2 : d2 ∈ selVals ((dirSignatures dups).map (fun g => (g.2, g.1)))
        (List.insertionSort (· ≤ ·) hs1) := (mem_selVals _ _ _).mpr hsw2
    have hvs : (List.insertionSort (· ≤ ·) hs1,
        selVals ((dirSignatures dups).map (fun g => (g.2, g.1)))
          (List.insertionSort (· ≤ ·) hs1)) ∈ signatureGroups dups :=
      mem_groupBy_iff.mpr ⟨rfl, List.ne_nil_of_mem hd1⟩
    have h2len : 1 < (selVals ((dirSignatures dups).map (fun g => (g.2, g.1)))
        (List.insertionSort (· ≤ ·) hs1)).length :=
      one_lt_length_of_two_mem hd1 hd2 hne
    refine ⟨_, ?_, hd1, hd2⟩
    simp only [find_identical_directories]
    exact List.mem_map_of_mem _ (List.mem_filter.mpr ⟨hvs, by simpa using h2len⟩)
  · intro hnp g hg hdd
    obtain ⟨hd1, hd2⟩ := hdd
    obtain ⟨⟨sig, vs⟩, hmemf, rfl⟩ := List.mem_map.mp hg
    have hmem : (sig, vs) ∈ signatureGroups dups := (List.mem_filter.mp hmemf).1
    obtain ⟨hvs, -⟩ := mem_groupBy_iff.mp hmem
    rw [hvs] at hd1 hd2
    have hs1' : (d1, sig) ∈ dirSignatures dups :=
      (mem_map_swap _ _ _).mp ((mem_selVals _ _ _).mp hd1)
    have hs2' : (d2, sig) ∈ dirSignatures dups :=
      (mem_map_swap _ _ _).mp ((mem_selVals _ _ _).mp hd2)
    obtain ⟨hsA, hmA, hsigA⟩ := mem_dirSignatures_iff.mp hs1'
    obtain ⟨hsB, hmB, hsigB⟩ := mem_dirSignatures_iff.mp hs2'
    have heqA : hsA = hs1 := keys_nodup_mem_inj hkeys hmA h1
    have heqB : hsB = hs2 := keys_nodup_mem_inj hkeys hmB h2
    subst heqA
    subst heqB
    exact hnp (perm_of_sort_eq (hsigA.symm.trans hsigB))

/-- Witness for C5: directory `a` contributes the fingerprint multiset
`[5, 5, 7]` and directory `b` contributes `[7, 5, 5]`; they end up in one
identical-directory group. -/
theorem directory_matching_perm_witness :
    ∃ g ∈ find_identical_directories dupsW, ("a" : Path) ∈ g ∧ ("b" : Path) ∈ g :=
  (directory_matching_perm dupsW "a" "b" [5, 5, 7] [7, 5, 5]
    (by decide) (by decide) (by decide)).1 (by decide)

/-! ## Claim C8: a missing file yields a per-item error and is skipped -/

theorem alookup_filter_none {K V : Type} [DecidableEq K] {l : List (K × V)} {k : K}
    (P : K × V → Bool) (h : alookup k l = none) : alookup k (l.filter P) = none := by
  induction l with
  | nil => simp [alookup]
  | cons kv rest ih =>
    obtain ⟨k₀, v₀⟩ := kv
    by_cases hk : k₀ = k
    · simp [alookup, hk] at h
    · simp only [alookup, hk, if_false] at h
      by_cases hP : P (k₀, v₀)
      · simp [List.filter_cons, hP, alookup, hk, ih h]
      · simp [List.filter_cons, hP, ih h]

theorem deleteFileStep_absent_preserved (d : Bool) (st : ExecState) (p q : Path)
    (h : alookup q st.fs.files = none) :
    alookup q ((deleteFileStep d st p).fs.files) = none := by
  obtain ⟨⟨fsf, fsd⟩, df, dd, fr, E⟩ := st
  simp only [FS.files] at h
  cases hl : alookup p fsf with
  | none => simpa [deleteFileStep, hl] using h
  | some size =>
    cases d with
    | true => simpa [deleteFileStep, hl] using h
    | false =>
      simp only [deleteFileStep, hl]
      simpa using alookup_filter_none _ h

theorem foldFiles_absent (d : Bool) (l : List Path) :
    ∀ (st : ExecState) (q : Path), alookup q st.fs.files = none →
      alookup q ((l.foldl (deleteFileStep d) st).fs.files) = none := by
  induction l with
  | nil => intro st q h; exact h
  | cons p l' ih =>
    intro st q h
    simp only [List.foldl_cons]
    exact ih _ q (deleteFileStep_absent_preserved d st p q h)

theorem deleteFileStep_absent (d : Bool) (st : ExecState) (p : Path)
    (h : alookup p st.fs.files = none) :
    deleteFileStep d st p =
      ⟨st.fs, st.deleted_files, st.deleted_dirs, st.freed_space, st.errors ++ [p]⟩ := by
  obtain ⟨fs, df, dd, fr, E⟩ := st
  simp only [FS.files] at h
  simp [deleteFileStep, h]

/-- Folding the file-deletion loop from two states that differ only in
their error lists produces the same filesystem and counters, and appends
the same error suffix to both lists. -/
theorem foldFiles_errors_congr (d : Bool) (l : List Path) :
    ∀ st st' : ExecState,
      st'.fs = st.fs → st'.deleted_files = st.deleted_files →
      st'.deleted_dirs = st.deleted_dirs → st'.freed_space = st.freed_space →
      (l.foldl (deleteFileStep d) st').fs = (l.foldl (deleteFileStep d) st).fs
      ∧ (l.foldl (deleteFileStep d) st').deleted_files =
          (l.foldl (deleteFileStep d) st).deleted_files
      ∧ (l.foldl (deleteFileStep d) st').deleted_dirs =
          (l.foldl (deleteFileStep d) st).deleted_dirs
      ∧ (l.foldl (deleteFileStep d) st').freed_space =
          (l.foldl (deleteFileStep d) st).freed_space
      ∧ ∃ suffix : List Path,
          (l.foldl (deleteFileStep d) st').errors = st'.errors ++ suffix
          ∧ (l.foldl (deleteFileStep d) st).errors = st.errors ++ suffix := by
  induction l with
  | nil =>
    intro st st' h1 h2 h3 h4
    exact ⟨h1, h2, h3, h4, [], by simp, by simp⟩
  | cons p l' ih =>
    intro st st' h1 h2 h3 h4
    simp only [List.foldl_cons]
    cases hl : alookup p st.fs.files with
    | some size =>
      have hl' : alookup p st'.fs.files = some size := by rw [h1]; exact hl
      have hstepA : deleteFileStep d st p =
          ⟨if d then st.fs else ⟨st.fs.files.filter fun x => x.1 ≠ p, st.fs.dirs⟩,
           st.deleted_files + 1, st.deleted_dirs, st.freed_space + size, st.errors⟩ := by
        cases d <;> simp [deleteFileStep, hl]
      have hstepB : deleteFileStep d st' p =
          ⟨if d then st.fs else ⟨st.fs.files.filter fun x => x.1 ≠ p, st.fs.dirs⟩,
           st.deleted_files + 1, st.deleted_dirs, st.freed_space + size, st'.errors⟩ := by
        cases d <;> simp [deleteFileStep, hl, hl', h1, h2, h3, h4]
      rw [hstepA, hstepB]
      exact ih _ _ rfl rfl rfl rfl
    | none =>
      have hl' : alookup p st'.fs.files = none := by rw [h1]; exact hl
      have hstepA : deleteFileStep d st p =
          ⟨st.fs, st.deleted_files, st.deleted_dirs, st.freed_space, st.errors ++ [p]⟩ := by
        simp [deleteFileStep, hl]
      have hstepB : deleteFileStep d st' p =
          ⟨st.fs, st.deleted_files, st.deleted_dirs, st.freed_space, st'.errors ++ [p]⟩ := by
        simp [deleteFileStep, hl, hl', h1, h2, h3, h4]
      rw [hstepA, hstepB]
      obtain ⟨g1, g2, g3, g4, suffix, he', he⟩ := ih
        ⟨st.fs, st.deleted_files, st.deleted_dirs, st.freed_space, st.errors ++ [p]⟩
        ⟨st.fs, st.deleted_files, st.deleted_dirs, st.freed_space, st'.errors ++ [p]⟩
        rfl rfl rfl rfl
      refine ⟨g1, g2, g3, g4, [p] ++ suffix, ?_, ?_⟩
      · simpa [List.append_assoc] using he'
      · simpa [List.append_assoc] using he

/-- Same congruence for the directory-deletion loop. -/
theorem foldDirs_errors_congr (d : Bool) (l : List Path) :
    ∀ st st' : ExecState,
      st'.fs = st.fs → st'.deleted_files = st.deleted_files →
      st'.deleted_dirs = st.deleted_dirs → st'.freed_space = st.freed_space →
      (l.foldl (deleteDirStep d) st').fs = (l.foldl (deleteDirStep d) st).fs
      ∧ (l.foldl (deleteDirStep d) st').deleted_files =
          (l.foldl (deleteDirStep d) st).deleted_files
      ∧ (l.foldl (deleteDirStep d) st').deleted_dirs =
          (l.foldl (deleteDirStep d) st).deleted_dirs
      ∧ (l.foldl (deleteDirStep d) st').freed_space =
          (l.foldl (deleteDirStep d) st).freed_space
      ∧ ∃ suffix : List Path,
          (l.foldl (deleteDirStep d) st').errors = st'.errors ++ suffix
          ∧ (l.foldl (deleteDirStep d) st).errors = st.errors ++ suffix := by
  induction l with
  | nil =>
    intro st st' h1 h2 h3 h4
    exact ⟨h1, h2, h3, h4, [], by simp, by simp⟩
  | cons p l' ih =>
    intro st st' h1 h2 h3 h4
    simp only [List.foldl_cons]
    by_cases hd : p ∈ st.fs.dirs
    · have hd' : p ∈ st'.fs.dirs := by rw [h1]; exact hd
      have hstepA : deleteDirStep d st p =
          ⟨if d then st.fs else ⟨st.fs.files.filter fun x => ¬ underDir p x.1,
             st.fs.dirs.filter fun x => x ≠ p⟩,
           st.deleted_files, st.deleted_dirs + 1,
           st.freed_space +
             (((st.fs.files.filter fun x => underDir p x.1).map fun x => x.2).sum),
           st.errors⟩ := by
        cases d <;> simp [deleteDirStep, hd]
      have hstepB : deleteDirStep d st' p =
          ⟨if d then st.fs else ⟨st.fs.files.filter fun x => ¬ underDir p x.1,
             st.fs.dirs.filter fun x => x ≠ p⟩,
           st.deleted_files, st.deleted_dirs + 1,
           st.freed_space +
             (((st.fs.files.filter fun x => underDir p x.1).map fun x => x.2).sum),
           st'.errors⟩ := by
        cases d <;> simp [deleteDirStep, hd, hd', h1, h2, h3, h4]
      rw [hstepA, hstepB]
      exact ih _ _ rfl rfl rfl rfl
    · have hd' : p ∉ st'.fs.dirs := by rw [h1]; exact hd
      have hstepA : deleteDirStep d st p =
          ⟨st.fs, st.deleted_files, st.deleted_dirs, st.freed_space, st.errors ++ [p]⟩ := by
        simp [deleteDirStep, hd]
      have hstepB : deleteDirStep d st' p =
          ⟨st.fs, st.deleted_files, st.deleted_dirs, st.freed_space, st'.errors ++ [p]⟩ := by
        simp [deleteDirStep, hd, hd', h1, h2, h3, h4]
      rw [hstepA, hstepB]
      obtain ⟨g1, g2, g3, g4, suffix, he', he⟩ := ih
        ⟨st.fs, st.deleted_files, st.deleted_dirs, st.freed_space, st.errors ++ [p]⟩
        ⟨st.fs, st.deleted_files, st.deleted_dirs, st.freed_space, st'.errors ++ [p]⟩
        rfl rfl rfl rfl
      refine ⟨g1, g2, g3, g4, [p] ++ suffix, ?_, ?_⟩
      · simpa [List.append_assoc] using he'
      · simpa [List.append_assoc] using he

/-- C8: a planned file that no longer exists is recorded as a per-item
error, contributes nothing to the deleted-files count or the freed-bytes
total, leaves the filesystem untouched, and the remaining files and
directories of the plan execute exactly as they would without it. -/
theorem missing_file_error_skipped (d : Bool) (fs0 : FS) (l1 l2 ds : List Path) (p : Path)
    (hmiss : alookup p fs0.files = none) :
    p ∈ (execute_deletion d (l1 ++ p :: l2) ds fs0).errors
    ∧ (execute_deletion d (l1 ++ p :: l2) ds fs0).deleted_files =
        (execute_deletion d (l1 ++ l2) ds fs0).deleted_files
    ∧ (execute_deletion d (l1 ++ p :: l2) ds fs0).deleted_dirs =
        (execute_deletion d (l1 ++ l2) ds fs0).deleted_dirs
    ∧ (execute_deletion d (l1 ++ p :: l2) ds fs0).freed_space =
        (execute_deletion d (l1 ++ l2) ds fs0).freed_space
    ∧ (execute_deletion d (l1 ++ p :: l2) ds fs0).fs =
        (execute_deletion d (l1 ++ l2) ds fs0).fs := by
  have habs : alookup p ((l1.foldl (deleteFileStep d)
      (⟨fs0, 0, 0, 0, []⟩ : ExecState)).fs.files) = none :=
    foldFiles_absent d l1 ⟨fs0, 0, 0, 0, []⟩ p hmiss
  have hstep := deleteFileStep_absent d (l1.foldl (deleteFileStep d) ⟨fs0, 0, 0, 0, []⟩) p habs
  have hsplitL : execute_deletion d (l1 ++ p :: l2) ds fs0 =
      ds.foldl (deleteDirStep d)
        (l2.foldl (deleteFileStep d)
          (⟨(l1.foldl (deleteFileStep d) (⟨fs0, 0, 0, 0, []⟩ : ExecState)).fs,
            (l1.foldl (deleteFileStep d) (⟨fs0, 0, 0, 0, []⟩ : ExecState)).deleted_files,
            (l1.foldl (deleteFileStep d) (⟨fs0, 0, 0, 0, []⟩ : ExecState)).deleted_dirs,
            (l1.foldl (deleteFileStep d) (⟨fs0, 0, 0, 0, []⟩ : ExecState)).freed_space,
            (l1.foldl (deleteFileStep d) (⟨fs0, 0, 0, 0, []⟩ : ExecState)).errors ++ [p]⟩
            : ExecState)) := by
    simp only [execute_deletion, List.foldl_append, List.foldl_cons, hstep]
  have hsplitR : execute_deletion d (l1 ++ l2) ds fs0 =
      ds.foldl (deleteDirStep d)
        (l2.foldl (deleteFileStep d)
          (l1.foldl (deleteFileStep d) (⟨fs0, 0, 0, 0, []⟩ : ExecState))) := by
    simp only [execute_deletion, List.foldl_append]
  obtain ⟨f1, f2, f3, f4, suffix, hsufL, hsufR⟩ :=
    foldFiles_errors_congr d l2
      (l1.foldl (deleteFileStep d) ⟨fs0, 0, 0, 0, []⟩)
      (⟨(l1.foldl (deleteFileStep d) (⟨fs0, 0, 0, 0, []⟩ : ExecState)).fs,
        (l1.foldl (deleteFileStep d) (⟨fs0, 0, 0, 0, []⟩ : ExecState)).deleted_files,
        (l1.foldl (deleteFileStep d) (⟨fs0, 0, 0, 0, []⟩ : ExecState)).deleted_dirs,
        (l1.foldl (deleteFileStep d) (⟨fs0, 0, 0, 0, []⟩ : ExecState)).freed_space,
        (l1.foldl (deleteFileStep d) (⟨fs0, 0, 0, 0, []⟩ : ExecState)).errors ++ [p]⟩
        : ExecState) rfl rfl rfl rfl
  obtain ⟨g1, g2, g3, g4, suffix2, hsufL2, hsufR2⟩ :=
    foldDirs_errors_congr d ds _ _ f1 f2 f3 f4
  rw [hsplitL, hsplitR]
  refine ⟨?_, g2, g3, g4, g1⟩
  rw [hsufL2, hsufL]
  simp only [ExecState.errors, List.append_assoc]
  simp [List.mem_append]

/-- Witness for C8: the plan lists the existing file `f1` and the missing
file `gone`; `gone` is reported and the rest executes unchanged. -/
theorem missing_file_error_skipped_witness :
    ("gone" : Path) ∈ (execute_deletion false (["f1"] ++ "gone" :: []) ["d1"] fsW).errors
    ∧ (execute_deletion false (["f1"] ++ "gone" :: []) ["d1"] fsW).freed_space =
        (execute_deletion false (["f1"] ++ []) ["d1"] fsW).freed_space :=
  ⟨(missing_file_error_skipped false fsW ["f1"] [] ["d1"] "gone" (by decide)).1,
   (missing_file_error_skipped false fsW ["f1"] [] ["d1"] "gone" (by decide)).2.2.2.1⟩

end Duplo
